import Mathlib

set_option maxRecDepth 8192
set_option maxHeartbeats 2000000

/-!
Verification development for `doxygen/process_source_files.py`.

File texts are modelled as `List Char`; positions are `Nat` offsets into the
list.  Python exceptions are modelled by `Except String`.  Each definition
below embeds the correspondingly named piece of the Python source.
-/

/-- Character class of the Python regex `\s` (also used by `str.strip()`):
the ASCII whitespace characters together with the Unicode whitespace
characters Python recognises on `str` inputs. -/
def isPyWs (c : Char) : Bool :=
  c == ' ' || c == '\t' || c == '\n' || c == '\x0d' || c == '\x0b' || c == '\x0c' ||
  c == '\x1c' || c == '\x1d' || c == '\x1e' || c == '\x1f' || c == '\x85' || c == '\xa0' ||
  c == ' ' || c == ' ' || c == ' ' || c == ' ' || c == ' ' ||
  c == ' ' || c == ' ' || c == ' ' || c == ' ' || c == ' ' ||
  c == ' ' || c == ' ' || c == ' ' || c == ' ' || c == ' ' ||
  c == ' ' || c == '　'

/-- `listStartsWith w l` holds when `w` is a prefix of `l` (the substring of
the text beginning at a given offset starts with the word `w`). -/
def listStartsWith : List Char → List Char → Bool
  | [], _ => true
  | _ :: _, [] => false
  | c :: w, d :: l => c == d && listStartsWith w l

/-- The scanning loop of `get_curly_brace_scope_end` (lines 16-26 of the
source): `braceScanList l pos counter` scans the remaining text `l`, whose
first character sits at absolute position `pos`, with the current value of
`bracket_counter`.  The source increments on `{`, decrements on `}` and
returns the current position when the counter reaches `0` (the counter is
always at least `1` on entry, so `counter == 1` at a `}` is exactly the
source's decrement-to-zero test); falling off the end yields `none`, which
the caller turns into the sentinel `-1`. -/
def braceScanList : List Char → Nat → Nat → Option Nat
  | [], _, _ => none
  | c :: rest, pos, counter =>
    if c = '\x7b' then braceScanList rest (pos + 1) (counter + 1)
    else if c = '\x7d' then
      if counter = 1 then some pos
      else braceScanList rest (pos + 1) (counter - 1)
    else braceScanList rest (pos + 1) counter

/-- `get_curly_brace_scope_end` (lines 9-26).  Fails when the character at
`start_pos` is not an opening brace (the source raises `ValueError` there;
an out-of-range `start_pos`, for which `get?` is `none`, also fails at the
same subscript in Python).  Otherwise it runs the depth-counter scan from
`start_pos + 1` with the counter starting at `1`, and returns `-1` as the
"not found" sentinel when the scan reaches the end of the text. -/
def get_curly_brace_scope_end (s : List Char) (start_pos : Nat) : Except String Int :=
  if s[start_pos]? = some '\x7b' then
    Except.ok (match braceScanList (s.drop (start_pos + 1)) (start_pos + 1) 1 with
      | some e => (e : Int)
      | none => -1)
  else Except.error "string must have \"\x7b\" at start pos"

/-- The filename gate of `add_doxygen_group` (line 38):
`re.match(r"^juce_.*\.(h|dox)", filename)`.  After the literal prefix
`juce_`, the regex needs a run of non-newline characters (`.` without
`DOTALL`), then a literal dot followed by `h` or `dox`; nothing anchors the
end of the name.  `hasDotExt` scans for such a dot. -/
def hasDotExt : List Char → Bool
  | [] => false
  | c :: rest =>
    (c == '.' && (listStartsWith "h".toList rest || listStartsWith "dox".toList rest)) ||
    (c != '\n' && hasDotExt rest)

/-- Whether a base filename matches `^juce_.*\.(h|dox)` (line 38). -/
def filenameMatches (filename : List Char) : Bool :=
  listStartsWith "juce_".toList filename && hasDotExt (filename.drop 5)

/-- Length of the leading whitespace run (a maximal `\s*` match). -/
def takeWsLen : List Char → Nat
  | [] => 0
  | c :: rest => if isPyWs c then takeWsLen rest + 1 else 0

/-- Length of the leading non-whitespace run (a maximal `\S*` match). -/
def takeNonWsLen : List Char → Nat
  | [] => 0
  | c :: rest => if isPyWs c then 0 else takeNonWsLen rest + 1

/-- One-or-more-whitespace step (`\s+`): the length of the maximal leading
whitespace run, failing when it is empty. -/
def reqWs (l : List Char) : Option Nat :=
  if takeWsLen l = 0 then none else some (takeWsLen l)

/-- Literal-word step: the word's length when `l` starts with it. -/
def reqWord (w l : List Char) : Option Nat :=
  if listStartsWith w l then some w.length else none

/-- One-or-more-non-whitespace step (`\S+`): the length of the maximal
leading non-whitespace run, failing when it is empty. -/
def reqNonWs (l : List Char) : Option Nat :=
  if takeNonWsLen l = 0 then none else some (takeNonWsLen l)

/-- Opening-brace step: succeeds exactly when `l` starts with `{`. -/
def reqOpenBrace (l : List Char) : Option Nat :=
  match l with
  | c :: _ => if c = '\x7b' then some 1 else none
  | [] => none

/-- Matching the namespace pattern `\s+namespace\s+\S+\s+{` (line 48) at the
head of `l`: one or more whitespace characters, the literal `namespace`, one
or more whitespace, one or more non-whitespace (the greedy `\S+` is forced
to the whole maximal run, since the following `\s+` cannot start inside it),
one or more whitespace, then an opening brace.  Returns the length of the
match (the regex `match.end()` relative to the start of `l`). -/
def nsMatchLen (l : List Char) : Option Nat := do
  let w1 ← reqWs l
  let n1 ← reqWord "namespace".toList (l.drop w1)
  let w2 ← reqWs (l.drop (w1 + n1))
  let idLen ← reqNonWs (l.drop (w1 + n1 + w2))
  let w3 ← reqWs (l.drop (w1 + n1 + w2 + idLen))
  let b ← reqOpenBrace (l.drop (w1 + n1 + w2 + idLen + w3))
  pure (w1 + n1 + w2 + idLen + w3 + b)

/-- `namespace_regex.search(content, search_start)` (lines 49 and 66):
`findNsMatchEnd l pos` scans the suffix `l = content.drop pos` for the
leftmost match of the namespace pattern starting at or after `pos`, and
returns the absolute `match.end()` of that match. -/
def findNsMatchEnd : List Char → Nat → Option Nat
  | [], _ => none
  | c :: rest, pos =>
    (nsMatchLen (c :: rest)).elim (findNsMatchEnd rest (pos + 1))
      (fun len => some (pos + len))

/-- `group_definition_start` (lines 39-42): the group-begin marker
`"\r\n/** @weakgroup " + group_name + "\r\n *  @{\r\n */\r\n"`. -/
def group_definition_start (group_name : List Char) : List Char :=
  "\r\n/** @weakgroup ".toList ++ group_name ++ "\r\n *  @\x7b\r\n */\r\n".toList

/-- `group_definition_end` (line 43): the group-end marker `"\r\n/** @}*/\r\n"`. -/
def group_definition_end : List Char :=
  "\r\n/** @\x7d*/\r\n".toList

/-- The namespace-processing `while` loop of `add_doxygen_group`
(lines 49-66).  Each iteration finds the next namespace match at or after
`search_start`, locates the namespace's closing brace with
`get_curly_brace_scope_end` (raising when it returns the `-1` sentinel),
splices the begin marker just after the namespace's opening brace and the
end marker just before its closing brace, and resumes searching from
`namespace_end + len(start marker) + len(end marker)` in the grown text.
The `fuel` argument only bounds the number of iterations: every iteration
strictly decreases `content.length - search_start` (each inserts as much
text as it adds to `search_start`, and the next `namespace_end` lies beyond
the previous `search_start`), so the initial fuel `content.length + 1` is
never exhausted; `inject_group_loop_fuel_irrelevant` below proves the
result does not depend on the fuel once it exceeds that measure. -/
def inject_group_loop (group_name : List Char) : Nat → List Char → Nat → Except String (List Char)
  | 0, content, _ => Except.ok content
  | fuel + 1, content, search_start =>
    match findNsMatchEnd (content.drop search_start) search_start with
    | none => Except.ok content
    | some match_end =>
      match get_curly_brace_scope_end content (match_end - 1) with
      | Except.error e => Except.error e
      | Except.ok namespace_end =>
        if namespace_end = -1 then
          Except.error "error finding end of namespace"
        else
          inject_group_loop group_name fuel
            (content.take match_end ++ group_definition_start group_name ++
              (content.drop match_end).take (namespace_end.toNat - match_end) ++
              group_definition_end ++ content.drop namespace_end.toNat)
            (namespace_end.toNat + (group_definition_start group_name).length +
              group_definition_end.length)

/-- `add_doxygen_group` (lines 29-71) as a pure function from the file's
base name and current contents to the new file contents: when the filename
matches `^juce_.*\.(h|dox)` the namespace loop runs and the whole result is
written back as begin marker + processed content + end marker (lines
68-71); otherwise nothing happens and the file keeps its contents.  The
error case models the uncaught `ValueError` of line 52. -/
def add_doxygen_group (filename content group_name : List Char) : Except String (List Char) :=
  if filenameMatches filename then
    match inject_group_loop group_name (content.length + 1) content 0 with
    | Except.ok new_content =>
      Except.ok (group_definition_start group_name ++ new_content ++ group_definition_end)
    | Except.error e => Except.error e
  else Except.ok content

/-- The `BEGIN_JUCE_MODULE_DECLARATION` token (line 112). -/
def beginMarker : List Char := "BEGIN_JUCE_MODULE_DECLARATION".toList

/-- The `END_JUCE_MODULE_DECLARATION` token (line 114). -/
def endMarker : List Char := "END_JUCE_MODULE_DECLARATION".toList

/-- `occursAt s w i` holds when the word `w` occurs in `s` at offset `i`. -/
def occursAt (s w : List Char) (i : Nat) : Bool := listStartsWith w (s.drop i)

/-- Largest `i < n` satisfying `p`, if any. -/
def lastIdxWhere (p : Nat → Bool) : Nat → Option Nat
  | 0 => none
  | n + 1 => if p n then some n else lastIdxWhere p n

/-- Whether an end-marker occurrence exists at offset `k` or later. -/
def hasEndMarkerFrom (content : List Char) (k : Nat) : Bool :=
  (lastIdxWhere (fun e => occursAt content endMarker e && decide (k ≤ e))
    (content.length + 1)).isSome

/-- The declaration-block match of lines 112-115:
`re.match(r".*BEGIN_JUCE_MODULE_DECLARATION(.*)END_JUCE_MODULE_DECLARATION.*", content, re.DOTALL)`.
The greedy leading `.*` ends at the last begin-marker occurrence that still
has an end-marker occurrence after it, and the greedy `(.*)` then extends to
the last end-marker occurrence after that point; the captured group is the
text strictly between them.  `none` models the failed match, on which line
115's `.group(1)` raises (`MissingDeclarationBlock`). -/
def extract_declaration_block (content : List Char) : Option (List Char) :=
  match lastIdxWhere
      (fun b => occursAt content beginMarker b &&
        hasEndMarkerFrom content (b + beginMarker.length))
      (content.length + 1) with
  | none => none
  | some b =>
    match lastIdxWhere
        (fun e => occursAt content endMarker e && decide (b + beginMarker.length ≤ e))
        (content.length + 1) with
    | none => none
    | some e =>
      some ((content.drop (b + beginMarker.length)).take (e - (b + beginMarker.length)))

/-- `str.strip()` on a line: drop whitespace from both ends. -/
def pyStrip (l : List Char) : List Char :=
  ((l.dropWhile isPyWs).reverse.dropWhile isPyWs).reverse

/-- Python's `block.split("\n")` on character lists (`"".split` gives `[""]`). -/
def splitOnNl : List Char → List (List Char)
  | [] => [[]]
  | c :: rest =>
    if c = '\n' then [] :: splitOnNl rest
    else
      match splitOnNl rest with
      | [] => [[c]]
      | line :: lines => (c :: line) :: lines

/-- The `description:` key of line 119. -/
def descriptionTag : List Char := "description:".toList

/-- The description-line match of line 119,
`re.match(r"^.*?description:\s*(.*)$", stripped_line)`: the lazy `.*?` stops
at the first occurrence of `description:`, the greedy `\s*` then swallows
the whitespace after the colon, and the captured group is the rest of the
line. -/
def descriptionRest : List Char → Option (List Char)
  | [] => none
  | l@(_ :: rest) =>
    if listStartsWith descriptionTag l then
      some ((l.drop descriptionTag.length).dropWhile isPyWs)
    else descriptionRest rest

/-- The module information collected by the header-parsing loop of lines
117-124: `short_description` is `none` while the Python variable
`short_description` is still unassigned. -/
structure ModuleInfo where
  short_description : Option (List Char)
  detail_lines : List (List Char)
deriving DecidableEq, Repr

/-- One iteration of the `for line in ...` loop (lines 118-124): blank
lines (after stripping) are skipped, a description line overwrites
`short_description`, any other non-blank stripped line is appended to
`detail_lines`. -/
def process_block_line (acc : ModuleInfo) (line : List Char) : ModuleInfo :=
  let stripped_line := pyStrip line
  if stripped_line.isEmpty then acc
  else
    match descriptionRest stripped_line with
    | some d => { acc with short_description := some d }
    | none => { acc with detail_lines := acc.detail_lines ++ [stripped_line] }

/-- Lines 117-124: fold the line loop over `block.split("\n")`. -/
def parse_module_block (block : List Char) : ModuleInfo :=
  (splitOnNl block).foldl process_block_line ⟨none, []⟩

/-- Line 131, `"    {d}".format(d=short_description)`: building the module
definition reads `short_description`; Python raises `NameError` there when
the variable was never assigned by the loop. -/
def short_description_line (info : ModuleInfo) : Except String (List Char) :=
  match info.short_description with
  | some d => Except.ok ("    ".toList ++ d)
  | none => Except.error "NameError: name short_description is not defined"

/-- The top-level-file loop of lines 158-159: `add_doxygen_group` is applied
to each (filename, contents) pair with no `try`, so the first failure
propagates and aborts the batch. -/
def process_top_level_files (group_name : List Char) :
    List (List Char × List Char) → Except String (List (List Char × List Char))
  | [] => Except.ok []
  | (filename, content) :: rest =>
    match add_doxygen_group filename content group_name with
    | Except.error e => Except.error e
    | Except.ok out =>
      match process_top_level_files group_name rest with
      | Except.error e => Except.error e
      | Except.ok outs => Except.ok ((filename, out) :: outs)

/-- The subdirectory-file loop of lines 162-170: each `add_doxygen_group`
call sits in a `try/except` that logs and continues, so a failing file is
left with its original contents and the remaining files are still
processed. -/
def process_subdir_files (group_name : List Char) (files : List (List Char × List Char)) :
    List (List Char × List Char) :=
  files.map (fun f =>
    match add_doxygen_group f.1 f.2 group_name with
    | Except.ok out => (f.1, out)
    | Except.error _ => f)

/-- Number of offsets of `l` at which the word `w` occurs. -/
def countOccurrences (w : List Char) : List Char → Nat
  | [] => 0
  | l@(_ :: rest) =>
    (if listStartsWith w l then 1 else 0) + countOccurrences w rest

/-- Contribution of one character to the brace-nesting depth. -/
def charDelta (c : Char) : Int :=
  if c = '\x7b' then 1 else if c = '\x7d' then -1 else 0

/-- Brace-nesting depth change over a text. -/
def braceDelta : List Char → Int
  | [] => 0
  | c :: rest => charDelta c + braceDelta rest

/-- Well-formed brace text: the braces cancel overall and no prefix closes
more braces than it has opened (so every opening brace has a matching
closing brace). -/
def braceBalanced (l : List Char) : Prop :=
  braceDelta l = 0 ∧ ∀ n, n ≤ l.length → 0 ≤ braceDelta (l.take n)

instance braceBalancedDecidable (l : List Char) : Decidable (braceBalanced l) :=
  decidable_of_iff
    (braceDelta l = 0 ∧ ∀ n, n ≤ l.length → 0 ≤ braceDelta (l.take n)) Iff.rfl

/-! ### Lemmas about the scanning primitives -/

theorem listStartsWith_length {w l : List Char} (h : listStartsWith w l = true) :
    w.length ≤ l.length := by
  induction w generalizing l with
  | nil => simp
  | cons c w ih =>
    cases l with
    | nil => simp [listStartsWith] at h
    | cons d l =>
      simp only [listStartsWith, Bool.and_eq_true] at h
      simpa using Nat.succ_le_succ (ih h.2)

theorem occursAt_bound {s w : List Char} {i : Nat} (hw : 0 < w.length)
    (h : occursAt s w i = true) : i + w.length ≤ s.length := by
  have hlen := listStartsWith_length (by simpa [occursAt] using h)
  rw [List.length_drop] at hlen
  omega

theorem lastIdxWhere_none {p : Nat → Bool} :
    ∀ {n : Nat}, lastIdxWhere p n = none → ∀ k, k < n → p k = false := by
  intro n
  induction n with
  | zero => intro _ k hk; omega
  | succ n ih =>
    intro h k hk
    rw [lastIdxWhere] at h
    by_cases hp : p n = true
    · simp [hp] at h
    · rcases Nat.lt_succ_iff_lt_or_eq.mp hk with h' | rfl
      · exact ih (by simpa [hp] using h) k h'
      · simpa using hp

theorem lastIdxWhere_spec {p : Nat → Bool} :
    ∀ {n m : Nat}, lastIdxWhere p n = some m →
      p m = true ∧ m < n ∧ ∀ k, m < k → k < n → p k = false := by
  intro n
  induction n with
  | zero => intro m h; simp [lastIdxWhere] at h
  | succ n ih =>
    intro m h
    rw [lastIdxWhere] at h
    by_cases hp : p n = true
    · simp only [hp, if_true, Option.some.injEq] at h
      subst h
      exact ⟨hp, Nat.lt_succ_self _, fun k hk1 hk2 => by omega⟩
    · simp only [hp, if_false] at h
      obtain ⟨h1, h2, h3⟩ := ih h
      refine ⟨h1, by omega, fun k hk1 hk2 => ?_⟩
      rcases Nat.lt_succ_iff_lt_or_eq.mp hk2 with h' | rfl
      · exact h3 k hk1 h'
      · simpa using hp

theorem lastIdxWhere_some_of {p : Nat → Bool} :
    ∀ {n k : Nat}, k < n → p k = true → ∃ m, lastIdxWhere p n = some m ∧ k ≤ m := by
  intro n
  induction n with
  | zero => intro k hk; omega
  | succ n ih =>
    intro k hk hp
    rw [lastIdxWhere]
    by_cases hn : p n = true
    · exact ⟨n, by simp [hn], by omega⟩
    · have hkn : k < n := by
        rcases Nat.lt_succ_iff_lt_or_eq.mp hk with h' | rfl
        · exact h'
        · exact absurd hp hn
      obtain ⟨m, hm1, hm2⟩ := ih hkn hp
      exact ⟨m, by simp [hn, hm1], hm2⟩

theorem takeWsLen_le : ∀ l : List Char, takeWsLen l ≤ l.length := by
  intro l
  induction l with
  | nil => simp [takeWsLen]
  | cons c rest ih =>
    rw [takeWsLen]
    split <;> simp <;> omega

theorem takeNonWsLen_le : ∀ l : List Char, takeNonWsLen l ≤ l.length := by
  intro l
  induction l with
  | nil => simp [takeNonWsLen]
  | cons c rest ih =>
    rw [takeNonWsLen]
    split <;> simp <;> omega

theorem reqWs_bound {l : List Char} {n : Nat} (h : reqWs l = some n) :
    1 ≤ n ∧ n ≤ l.length := by
  rw [reqWs] at h
  split_ifs at h with h1
  have := takeWsLen_le l
  simp only [Option.some.injEq] at h
  omega

theorem reqWord_bound {w l : List Char} {n : Nat} (h : reqWord w l = some n) :
    n = w.length ∧ n ≤ l.length := by
  rw [reqWord] at h
  split_ifs at h with h1
  have := listStartsWith_length h1
  simp only [Option.some.injEq] at h
  omega

theorem reqNonWs_bound {l : List Char} {n : Nat} (h : reqNonWs l = some n) :
    1 ≤ n ∧ n ≤ l.length := by
  rw [reqNonWs] at h
  split_ifs at h with h1
  have := takeNonWsLen_le l
  simp only [Option.some.injEq] at h
  omega

theorem reqOpenBrace_bound {l : List Char} {n : Nat} (h : reqOpenBrace l = some n) :
    n = 1 ∧ 1 ≤ l.length := by
  cases l with
  | nil => simp [reqOpenBrace] at h
  | cons c rest =>
    rw [reqOpenBrace] at h
    split_ifs at h with hc
    simp only [Option.some.injEq] at h
    simp [← h]

theorem nsMatchLen_bounds {l : List Char} {n : Nat} (h : nsMatchLen l = some n) :
    1 ≤ n ∧ n ≤ l.length := by
  rw [nsMatchLen] at h
  simp only [bind, Option.bind_eq_some, pure, Option.some.injEq] at h
  obtain ⟨w1, hw1, n1, hn1, w2, hw2, idLen, hid, w3, hw3, b, hb, hn⟩ := h
  obtain ⟨hw1a, hw1b⟩ := reqWs_bound hw1
  obtain ⟨hn1a, hn1b⟩ := reqWord_bound hn1
  obtain ⟨hw2a, hw2b⟩ := reqWs_bound hw2
  obtain ⟨hida, hidb⟩ := reqNonWs_bound hid
  obtain ⟨hw3a, hw3b⟩ := reqWs_bound hw3
  obtain ⟨hba, hbb⟩ := reqOpenBrace_bound hb
  simp only [List.length_drop] at hn1b hw2b hidb hw3b hbb
  omega

theorem findNsMatchEnd_bounds :
    ∀ (l : List Char) (pos e : Nat), findNsMatchEnd l pos = some e →
      pos < e ∧ e ≤ pos + l.length := by
  intro l
  induction l with
  | nil => intro pos e h; simp [findNsMatchEnd] at h
  | cons c rest ih =>
    intro pos e h
    rw [findNsMatchEnd] at h
    cases hm : nsMatchLen (c :: rest) with
    | none =>
      rw [hm] at h
      simp only [Option.elim] at h
      obtain ⟨h1, h2⟩ := ih (pos + 1) e h
      simp only [List.length_cons]
      omega
    | some len =>
      rw [hm] at h
      simp only [Option.elim, Option.some.injEq] at h
      obtain ⟨h1, h2⟩ := nsMatchLen_bounds hm
      simp only [List.length_cons] at h2 ⊢
      omega

theorem braceScanList_bounds :
    ∀ (l : List Char) (pos counter e : Nat), braceScanList l pos counter = some e →
      pos ≤ e ∧ e < pos + l.length := by
  intro l
  induction l with
  | nil => intro pos counter e h; simp [braceScanList] at h
  | cons c rest ih =>
    intro pos counter e h
    rw [braceScanList] at h
    split_ifs at h with h1 h2 h3
    · obtain ⟨a, b⟩ := ih (pos + 1) (counter + 1) e h
      simp only [List.length_cons]
      omega
    · simp only [Option.some.injEq] at h
      simp only [List.length_cons]
      omega
    · obtain ⟨a, b⟩ := ih (pos + 1) (counter - 1) e h
      simp only [List.length_cons]
      omega
    · obtain ⟨a, b⟩ := ih (pos + 1) counter e h
      simp only [List.length_cons]
      omega

theorem braceDelta_append (a b : List Char) :
    braceDelta (a ++ b) = braceDelta a + braceDelta b := by
  induction a with
  | nil => simp [braceDelta]
  | cons c rest ih => simp [braceDelta, ih]; ring

theorem charDelta_le_one (c : Char) : charDelta c ≤ 1 := by
  rw [charDelta]
  split_ifs <;> omega

theorem neg_one_le_charDelta (c : Char) : -1 ≤ charDelta c := by
  rw [charDelta]
  split_ifs <;> omega

theorem braceDelta_take_succ {l : List Char} {n : Nat} {c : Char} (h : l[n]? = some c) :
    braceDelta (l.take (n + 1)) = braceDelta (l.take n) + charDelta c := by
  rw [List.take_succ, h, braceDelta_append]
  simp [braceDelta]

/-- Discrete intermediate-value step: a text whose total depth change is at
most `t ≤ 0` has a prefix whose depth change is exactly `t`, because each
character changes the depth by at most one in either direction. -/
theorem braceDelta_reach :
    ∀ (l : List Char) (t : Int), t ≤ 0 → braceDelta l ≤ t →
      ∃ m, m ≤ l.length ∧ braceDelta (l.take m) = t := by
  intro l
  induction l with
  | nil =>
    intro t ht hd
    refine ⟨0, by simp, ?_⟩
    simp only [braceDelta] at hd
    simp [braceDelta]
    omega
  | cons c rest ih =>
    intro t ht hd
    by_cases ht0 : t = 0
    · exact ⟨0, by simp, by simp [braceDelta, ht0]⟩
    · have hc1 := charDelta_le_one c
      have hc2 := neg_one_le_charDelta c
      simp only [braceDelta] at hd
      obtain ⟨m, hm, hdm⟩ := ih (t - charDelta c) (by omega) (by omega)
      refine ⟨m + 1, by simp; omega, ?_⟩
      rw [List.take_succ_cons]
      simp only [braceDelta, hdm]
      ring

/-- Successful scans of `braceScanList`: the returned position holds a
closing brace, the depth change of the scanned text up to it is exactly
`1 - counter` (the counter reaches `1` there and the closing brace takes it
to `0`), and the counter stays at least `1` throughout the scan. -/
theorem braceScanList_spec :
    ∀ (l : List Char) (pos counter e : Nat), 1 ≤ counter →
      braceScanList l pos counter = some e →
      ∃ k, e = pos + k ∧ k < l.length ∧ l[k]? = some '\x7d' ∧
        braceDelta (l.take k) = 1 - (counter : Int) ∧
        ∀ q, q ≤ k → 1 ≤ (counter : Int) + braceDelta (l.take q) := by
  intro l
  induction l with
  | nil => intro pos counter e _ h; simp [braceScanList] at h
  | cons c rest ih =>
    intro pos counter e hc h
    rw [braceScanList] at h
    split_ifs at h with h1 h2 h3
    · obtain ⟨k, hk1, hk2, hk3, hk4, hk5⟩ := ih (pos + 1) (counter + 1) e (by omega) h
      refine ⟨k + 1, by omega, by simp only [List.length_cons]; omega, by simpa using hk3,
        ?_, ?_⟩
      · rw [List.take_succ_cons]
        simp only [braceDelta, charDelta, if_pos h1]
        push_cast at hk4 ⊢
        omega
      · intro q hq
        cases q with
        | zero => simp [braceDelta]; omega
        | succ q' =>
          have hinv := hk5 q' (by omega)
          rw [List.take_succ_cons]
          simp only [braceDelta, charDelta, if_pos h1]
          push_cast at hinv ⊢
          omega
    · simp only [Option.some.injEq] at h
      refine ⟨0, by omega, by simp, by simp [h2], by simp [braceDelta, h3], ?_⟩
      intro q hq
      have hq0 : q = 0 := by omega
      subst hq0
      simp [braceDelta]
      omega
    · obtain ⟨k, hk1, hk2, hk3, hk4, hk5⟩ := ih (pos + 1) (counter - 1) e (by omega) h
      refine ⟨k + 1, by omega, by simp only [List.length_cons]; omega, by simpa using hk3,
        ?_, ?_⟩
      · rw [List.take_succ_cons]
        simp only [braceDelta, charDelta, if_pos h2, if_neg h1]
        push_cast at hk4 ⊢
        omega
      · intro q hq
        cases q with
        | zero => simp [braceDelta]; omega
        | succ q' =>
          have hinv := hk5 q' (by omega)
          rw [List.take_succ_cons]
          simp only [braceDelta, charDelta, if_pos h2, if_neg h1]
          push_cast at hinv ⊢
          omega
    · obtain ⟨k, hk1, hk2, hk3, hk4, hk5⟩ := ih (pos + 1) counter e hc h
      refine ⟨k + 1, by omega, by simp only [List.length_cons]; omega, by simpa using hk3,
        ?_, ?_⟩
      · rw [List.take_succ_cons]
        simp only [braceDelta, charDelta, if_neg h1, if_neg h2]
        push_cast at hk4 ⊢
        omega
      · intro q hq
        cases q with
        | zero => simp [braceDelta]; omega
        | succ q' =>
          have hinv := hk5 q' (by omega)
          rw [List.take_succ_cons]
          simp only [braceDelta, charDelta, if_neg h1, if_neg h2]
          push_cast at hinv ⊢
          omega

/-- Completeness of the scan: when some prefix of the remaining text has
depth change `-counter`, the scan does find a closing brace. -/
theorem braceScanList_total :
    ∀ (l : List Char) (pos counter : Nat), 1 ≤ counter →
      (∃ k, k < l.length ∧ braceDelta (l.take (k + 1)) = -(counter : Int)) →
      ∃ e, braceScanList l pos counter = some e := by
  intro l
  induction l with
  | nil =>
    intro pos counter _ h
    obtain ⟨k, hk, _⟩ := h
    simp at hk
  | cons c rest ih =>
    intro pos counter hc h
    obtain ⟨k, hk, hdk⟩ := h
    rw [braceScanList]
    split_ifs with h1 h2 h3
    · apply ih (pos + 1) (counter + 1) (by omega)
      cases k with
      | zero =>
        exfalso
        rw [List.take_succ_cons, List.take_zero] at hdk
        simp only [braceDelta, charDelta, if_pos h1] at hdk
        omega
      | succ k' =>
        refine ⟨k', by simp only [List.length_cons] at hk; omega, ?_⟩
        rw [List.take_succ_cons] at hdk
        simp only [braceDelta, charDelta, if_pos h1] at hdk
        push_cast at hdk ⊢
        omega
    · exact ⟨pos, rfl⟩
    · apply ih (pos + 1) (counter - 1) (by omega)
      cases k with
      | zero =>
        exfalso
        rw [List.take_succ_cons, List.take_zero] at hdk
        simp only [braceDelta, charDelta, if_pos h2, if_neg h1] at hdk
        omega
      | succ k' =>
        refine ⟨k', by simp only [List.length_cons] at hk; omega, ?_⟩
        rw [List.take_succ_cons] at hdk
        simp only [braceDelta, charDelta, if_pos h2, if_neg h1] at hdk
        push_cast at hdk ⊢
        omega
    · apply ih (pos + 1) counter hc
      cases k with
      | zero =>
        exfalso
        rw [List.take_succ_cons, List.take_zero] at hdk
        simp only [braceDelta, charDelta, if_neg h1, if_neg h2] at hdk
        omega
      | succ k' =>
        refine ⟨k', by simp only [List.length_cons] at hk; omega, ?_⟩
        rw [List.take_succ_cons] at hdk
        simp only [braceDelta, charDelta, if_neg h1, if_neg h2] at hdk
        push_cast at hdk ⊢
        omega

/-- Claim C2: for every well-formed brace text and every position holding an
opening brace, the brace-scope matcher returns (as the depth-counter
algorithm's result) a position whose character is a closing brace, and the
substring strictly between the two positions has balanced brace nesting. -/
theorem c2_brace_matcher_balanced (s : List Char) (i : Nat)
    (hbal : braceBalanced s) (hopen : s[i]? = some '\x7b') :
    ∃ j : Nat, get_curly_brace_scope_end s i = Except.ok (j : Int) ∧
      s[j]? = some '\x7d' ∧ i < j ∧
      braceBalanced ((s.drop (i + 1)).take (j - (i + 1))) := by
  have hi : i < s.length := by
    by_contra hge
    rw [List.getElem?_eq_none (by omega)] at hopen
    exact absurd hopen (by simp)
  obtain ⟨hd0, hpref⟩ := hbal
  have htake : braceDelta (s.take (i + 1)) = braceDelta (s.take i) + 1 := by
    have h := braceDelta_take_succ hopen
    simpa [charDelta] using h
  have hpos : 1 ≤ braceDelta (s.take (i + 1)) := by
    have h := hpref i (by omega)
    omega
  have hsplit : braceDelta (s.take (i + 1)) + braceDelta (s.drop (i + 1)) = 0 := by
    rw [← braceDelta_append, List.take_append_drop]
    exact hd0
  obtain ⟨m, hm, hdm⟩ := braceDelta_reach (s.drop (i + 1)) (-1) (by omega) (by omega)
  have hm1 : 1 ≤ m := by
    by_contra h0
    have hz : m = 0 := by omega
    subst hz
    simp [braceDelta] at hdm
  have hex : ∃ k, k < (s.drop (i + 1)).length ∧
      braceDelta ((s.drop (i + 1)).take (k + 1)) = -((1 : Nat) : Int) := by
    refine ⟨m - 1, by omega, ?_⟩
    have hms : m - 1 + 1 = m := by omega
    rw [hms]
    simpa using hdm
  obtain ⟨e, he⟩ := braceScanList_total (s.drop (i + 1)) (i + 1) 1 (by omega) hex
  obtain ⟨k, hk1, hk2, hk3, hk4, hinv⟩ :=
    braceScanList_spec (s.drop (i + 1)) (i + 1) 1 e (by omega) he
  refine ⟨e, ?_, ?_, by omega, ?_⟩
  · rw [get_curly_brace_scope_end, if_pos hopen, he]
  · rw [hk1, ← List.getElem?_drop]
    exact hk3
  · have hjk : e - (i + 1) = k := by omega
    rw [hjk]
    constructor
    · simpa using hk4
    · intro n hn
      have hlen : ((s.drop (i + 1)).take k).length = k := by
        rw [List.length_take]
        exact inf_eq_left.mpr (by omega)
      rw [hlen] at hn
      rw [List.take_take, inf_eq_left.mpr hn]
      have h := hinv n hn
      push_cast at h
      omega

/-- Claim C3: the brace-scope matcher fails exactly when the character at
the start position is not an opening brace; under the precondition it never
fails, and a scan that falls off the end of the text yields the sentinel
`-1` instead. -/
theorem c3_error_iff_not_open_brace (s : List Char) (i : Nat) :
    ((∃ msg, get_curly_brace_scope_end s i = Except.error msg) ↔ ¬ s[i]? = some '\x7b') ∧
    (s[i]? = some '\x7b' → braceScanList (s.drop (i + 1)) (i + 1) 1 = none →
      get_curly_brace_scope_end s i = Except.ok (-1)) := by
  constructor
  · constructor
    · rintro ⟨msg, hmsg⟩ hopen
      rw [get_curly_brace_scope_end, if_pos hopen] at hmsg
      exact absurd hmsg (by simp)
    · intro hne
      refine ⟨"string must have \"\x7b\" at start pos", ?_⟩
      rw [get_curly_brace_scope_end, if_neg hne]
  · intro hopen hnone
    rw [get_curly_brace_scope_end, if_pos hopen, hnone]

/-- Claim C3, witness: on `"ab"` at position `0` the matcher fails, and on
`"{"` at position `0` (an opening brace with no matching close) it returns
the sentinel `-1` without failing. -/
theorem c3_witness :
    (∃ msg, get_curly_brace_scope_end "ab".toList 0 = Except.error msg) ∧
    get_curly_brace_scope_end "\x7b".toList 0 = Except.ok (-1) :=
  ⟨(c3_error_iff_not_open_brace "ab".toList 0).1.mpr (by decide),
   (c3_error_iff_not_open_brace "\x7b".toList 0).2 (by decide) (by decide)⟩

/-- Claim C2, witness: the matcher on `"{}"` at position `0`. -/
theorem c2_witness :
    ∃ j : Nat, get_curly_brace_scope_end "\x7b\x7d".toList 0 = Except.ok (j : Int) ∧
      ("\x7b\x7d".toList)[j]? = some '\x7d' ∧ 0 < j ∧
      braceBalanced ((("\x7b\x7d".toList).drop (0 + 1)).take (j - (0 + 1))) :=
  c2_brace_matcher_balanced "\x7b\x7d".toList 0 (by decide) (by decide)

theorem get_curly_ok_bounds {s : List Char} {i : Nat} {r : Int}
    (h : get_curly_brace_scope_end s i = Except.ok r) (hne : r ≠ -1) :
    ∃ nn : Nat, r = (nn : Int) ∧ i + 1 ≤ nn ∧ nn < s.length := by
  rw [get_curly_brace_scope_end] at h
  split_ifs at h with hopen
  simp only [Except.ok.injEq] at h
  revert h
  cases hscan : braceScanList (s.drop (i + 1)) (i + 1) 1 with
  | none =>
    intro h
    exact absurd h.symm hne
  | some e =>
    intro h
    obtain ⟨hb1, hb2⟩ := braceScanList_bounds _ _ _ _ hscan
    have hi : i < s.length := by
      by_contra hge
      rw [List.getElem?_eq_none (by omega)] at hopen
      exact absurd hopen (by simp)
    rw [List.length_drop] at hb2
    exact ⟨e, h.symm, by omega, by omega⟩

theorem inject_step_measure {content : List Char} {start me : Nat} {ne : Int}
    (g : List Char)
    (hfind : findNsMatchEnd (content.drop start) start = some me)
    (hok : get_curly_brace_scope_end content (me - 1) = Except.ok ne)
    (hne : ¬ ne = -1) :
    (content.take me ++ group_definition_start g ++
      (content.drop me).take (ne.toNat - me) ++ group_definition_end ++
      content.drop ne.toNat).length -
      (ne.toNat + (group_definition_start g).length + group_definition_end.length) <
      content.length - start := by
  obtain ⟨nn, hr, hn1, hn2⟩ := get_curly_ok_bounds hok hne
  obtain ⟨hm1, hm2⟩ := findNsMatchEnd_bounds _ _ _ hfind
  rw [List.length_drop] at hm2
  have hnn : ne.toNat = nn := by rw [hr]; simp
  rw [hnn]
  simp only [List.length_append, List.length_take, List.length_drop]
  have hme : me ≤ nn := by omega
  rw [inf_eq_left.mpr (le_of_lt (by omega : me < content.length)),
    inf_eq_left.mpr (by omega : nn - me ≤ content.length - me)]
  omega

theorem inject_group_loop_length (g : List Char) :
    ∀ (fuel : Nat) (content : List Char) (start : Nat) (out : List Char),
      inject_group_loop g fuel content start = Except.ok out →
      content.length ≤ out.length := by
  intro fuel
  induction fuel with
  | zero =>
    intro content start out h
    simp only [inject_group_loop, Except.ok.injEq] at h
    rw [h]
  | succ fuel ih =>
    intro content start out h
    rw [inject_group_loop] at h
    cases hfind : findNsMatchEnd (content.drop start) start with
    | none =>
      simp only [hfind, Except.ok.injEq] at h
      rw [h]
    | some me =>
      simp only [hfind] at h
      cases hok : get_curly_brace_scope_end content (me - 1) with
      | error msg =>
        simp only [hok] at h
        exact absurd h (by simp)
      | ok ne =>
        simp only [hok] at h
        by_cases hne : ne = -1
        · rw [if_pos hne] at h
          simp at h
        · rw [if_neg hne] at h
          have hlen := ih _ _ _ h
          obtain ⟨nn, hr, hn1, hn2⟩ := get_curly_ok_bounds hok hne
          obtain ⟨hm1, hm2⟩ := findNsMatchEnd_bounds _ _ _ hfind
          rw [List.length_drop] at hm2
          have hnn : ne.toNat = nn := by rw [hr]; simp
          rw [hnn] at hlen
          simp only [List.length_append, List.length_take, List.length_drop] at hlen
          have hme : me ≤ nn := by omega
          rw [inf_eq_left.mpr (le_of_lt (by omega : me < content.length)),
            inf_eq_left.mpr (by omega : nn - me ≤ content.length - me)] at hlen
          omega

/-- The loop's fuel is irrelevant once it exceeds `content.length - start`:
each iteration strictly decreases that measure (`inject_step_measure`), so
the run with initial fuel `content.length + 1` never reaches the fuel-zero
base case. -/
theorem inject_group_loop_fuel_irrelevant (g : List Char) :
    ∀ (fuel fuel' : Nat) (content : List Char) (start : Nat),
      content.length - start < fuel → content.length - start < fuel' →
      inject_group_loop g fuel content start = inject_group_loop g fuel' content start := by
  intro fuel
  induction fuel with
  | zero => intro fuel' content start h; exact absurd h (by omega)
  | succ fuel ih =>
    intro fuel' content start h h'
    cases fuel' with
    | zero => exact absurd h' (by omega)
    | succ fuel' =>
      rw [inject_group_loop]
      conv_rhs => rw [inject_group_loop]
      cases hfind : findNsMatchEnd (content.drop start) start with
      | none => simp only [hfind]
      | some me =>
        simp only [hfind]
        cases hok : get_curly_brace_scope_end content (me - 1) with
        | error msg => simp only [hok]
        | ok ne =>
          simp only [hok]
          by_cases hne : ne = -1
          · simp only [if_pos hne]
          · simp only [if_neg hne]
            have hmeas := inject_step_measure g hfind hok hne
            exact ih fuel' _ _ (by omega) (by omega)

/-- Claim C5: for any eligible filename and any text containing no
occurrence of the namespace-opening pattern, the injector's output is
exactly the group-begin marker, the original text unchanged, and the
group-end marker; the whole-file wrap is applied whether or not a
namespace was found. -/
theorem c5_no_namespace_wrap (name content g : List Char)
    (hname : filenameMatches name = true)
    (hns : findNsMatchEnd content 0 = none) :
    add_doxygen_group name content g =
      Except.ok (group_definition_start g ++ content ++ group_definition_end) := by
  rw [add_doxygen_group, if_pos hname]
  simp only [inject_group_loop, List.drop_zero, hns]

/-- Claim C5, witness: the eligible file `juce_x.h` with text `int x;`
(no namespace) and group name `G`. -/
theorem c5_witness :
    add_doxygen_group "juce_x.h".toList "int x;".toList "G".toList =
      Except.ok (group_definition_start "G".toList ++ "int x;".toList ++
        group_definition_end) :=
  c5_no_namespace_wrap "juce_x.h".toList "int x;".toList "G".toList
    (by decide) (by decide)

/-- Claim C4, counterexample: the filename `juce_a.hpp` ends with neither
`.h` nor `.dox`, yet the injector modifies the file: the regex
`^juce_.*\.(h|dox)` is not anchored at the end of the name, so the `.h`
inside `.hpp` satisfies it.  The claim's "modified iff the name ends with a
recognized extension" is therefore false at this input. -/
theorem c4_counterexample :
    add_doxygen_group "juce_a.hpp".toList "int x;".toList "G".toList =
      Except.ok (group_definition_start "G".toList ++ "int x;".toList ++
        group_definition_end) ∧
    group_definition_start "G".toList ++ "int x;".toList ++ group_definition_end ≠
      "int x;".toList :=
  ⟨by rfl, by decide⟩

/-- Claim C4, amended: a file is processed by the injector iff its base
name matches `^juce_.*\.(h|dox)` — it begins with `juce_` and contains `.h`
or `.dox` anywhere after the prefix (the extension is not anchored to the
end of the name).  Non-matching files are returned byte-for-byte unchanged
with no error, and whenever a matching file is processed successfully its
new contents are strictly longer than, and different from, the original. -/
theorem c4_amended_gate (name content g : List Char) :
    (filenameMatches name = false → add_doxygen_group name content g = Except.ok content) ∧
    (filenameMatches name = true → ∀ out, add_doxygen_group name content g = Except.ok out →
      content.length < out.length ∧ out ≠ content) := by
  constructor
  · intro hf
    rw [add_doxygen_group, if_neg (by simp [hf])]
  · intro hf out hout
    rw [add_doxygen_group, if_pos hf] at hout
    cases hinj : inject_group_loop g (content.length + 1) content 0 with
    | error e =>
      simp only [hinj] at hout
      exact absurd hout (by simp)
    | ok c2 =>
      simp only [hinj, Except.ok.injEq] at hout
      have hlen := inject_group_loop_length g _ _ _ _ hinj
      have hgslen : (group_definition_start g).length = 32 + g.length := by
        rw [group_definition_start]
        simp only [List.length_append]
        have h1 : ("\r\n/** @weakgroup ".toList).length = 17 := by rfl
        have h2 : ("\r\n *  @\x7b\r\n */\r\n".toList).length = 15 := by rfl
        omega
      have hgelen : group_definition_end.length = 12 := by rfl
      subst hout
      refine ⟨?_, ?_⟩
      · simp only [List.length_append, hgslen, hgelen]
        omega
      · intro hcontra
        have hc := congrArg List.length hcontra
        simp only [List.length_append, hgslen, hgelen] at hc
        omega

/-- Claim C4, witness: `x.h` (no `juce_` prefix) is left unchanged, while
`juce_y.h` is modified. -/
theorem c4_witness :
    add_doxygen_group "x.h".toList "a".toList "G".toList = Except.ok "a".toList ∧
    ("a".toList).length <
      (group_definition_start "G".toList ++ "a".toList ++ group_definition_end).length ∧
    group_definition_start "G".toList ++ "a".toList ++ group_definition_end ≠
      "a".toList :=
  ⟨(c4_amended_gate "x.h".toList "a".toList "G".toList).1 (by decide),
   ((c4_amended_gate "juce_y.h".toList "a".toList "G".toList).2 (by decide)
     (group_definition_start "G".toList ++ "a".toList ++ group_definition_end)
     (by rfl)).1,
   ((c4_amended_gate "juce_y.h".toList "a".toList "G".toList).2 (by decide)
     (group_definition_start "G".toList ++ "a".toList ++ group_definition_end)
     (by rfl)).2⟩

/-- Claim C1, counterexample: on the claim's own example text
`namespace A { x } namespace B { y }`, with the eligible filename
`juce_x.h` and group name `G`, only namespace `B` receives an inner marker
pair.  The pattern `\s+namespace\s+\S+\s+{` demands at least one whitespace
character before the `namespace` keyword, and the first namespace sits at
the very start of the text, so it never matches.  The output therefore
contains the group-begin marker twice (inside `B`'s body and as the outer
wrap), not the three times the claim's "one pair inside each of the two
namespace bodies plus one wrapping pair" requires. -/
theorem c1_counterexample :
    add_doxygen_group "juce_x.h".toList
        "namespace A \x7b x \x7d namespace B \x7b y \x7d".toList "G".toList =
      Except.ok (group_definition_start "G".toList ++
        ("namespace A \x7b x \x7d namespace B \x7b".toList ++
          group_definition_start "G".toList ++ " y ".toList ++
          group_definition_end ++ "\x7d".toList) ++ group_definition_end) ∧
    countOccurrences (group_definition_start "G".toList)
      (group_definition_start "G".toList ++
        ("namespace A \x7b x \x7d namespace B \x7b".toList ++
          group_definition_start "G".toList ++ " y ".toList ++
          group_definition_end ++ "\x7d".toList) ++ group_definition_end) = 2 ∧
    (2 : Nat) ≠ 3 :=
  ⟨by rfl, by rfl, by decide⟩

/-- Claim C1, amended: a namespace occurrence is matched only when at least
one whitespace character precedes the `namespace` keyword.  For the
claim's text `namespace A { x } namespace B { y }` only namespace `B` (which
follows a space) receives an inner begin/end pair, giving two pairs in total
(one inside `B`, one wrapping the file).  When every namespace is preceded
by whitespace, as in ` namespace A { x } namespace B { y }`, each of the two
namespace bodies receives its own begin/end pair and one more pair wraps the
entire output — three begin markers and three end markers in all, as the
computed output below shows. -/
theorem c1_amended_markers :
    add_doxygen_group "juce_x.h".toList
        " namespace A \x7b x \x7d namespace B \x7b y \x7d".toList "G".toList =
      Except.ok (group_definition_start "G".toList ++
        (" namespace A \x7b".toList ++ group_definition_start "G".toList ++
          " x ".toList ++ group_definition_end ++
          "\x7d namespace B \x7b".toList ++ group_definition_start "G".toList ++
          " y ".toList ++ group_definition_end ++ "\x7d".toList) ++
        group_definition_end) ∧
    countOccurrences (group_definition_start "G".toList)
      (group_definition_start "G".toList ++
        (" namespace A \x7b".toList ++ group_definition_start "G".toList ++
          " x ".toList ++ group_definition_end ++
          "\x7d namespace B \x7b".toList ++ group_definition_start "G".toList ++
          " y ".toList ++ group_definition_end ++ "\x7d".toList) ++
        group_definition_end) = 3 ∧
    countOccurrences group_definition_end
      (group_definition_start "G".toList ++
        (" namespace A \x7b".toList ++ group_definition_start "G".toList ++
          " x ".toList ++ group_definition_end ++
          "\x7d namespace B \x7b".toList ++ group_definition_start "G".toList ++
          " y ".toList ++ group_definition_end ++ "\x7d".toList) ++
        group_definition_end) = 3 :=
  ⟨by rfl, by rfl, by rfl⟩

/-- Claim C6: the extractor splits the declaration block into lines,
discards blank lines after trimming, captures the remainder of the
description-tagged line as the short description, and keeps every other
non-blank trimmed line, in source order, as detail lines.  For the header
containing `description: Does X` and `id: foo` the result is
`shortDescription = "Does X"` with `detailLines = ["id: foo"]`; the second
header checks that order is preserved and that the description line is
excluded from the detail lines wherever it appears. -/
theorem c6_extraction_example :
    (extract_declaration_block
        ("BEGIN_JUCE_MODULE_DECLARATION\n  description: Does X\n  id: foo\nEND_JUCE_MODULE_DECLARATION".toList)).map
        parse_module_block =
      some ⟨some "Does X".toList, ["id: foo".toList]⟩ ∧
    (extract_declaration_block
        ("BEGIN_JUCE_MODULE_DECLARATION\n id: foo\n description: Does X\n vendor: j\nEND_JUCE_MODULE_DECLARATION".toList)).map
        parse_module_block =
      some ⟨some "Does X".toList, ["id: foo".toList, "vendor: j".toList]⟩ :=
  ⟨by rfl, by rfl⟩

/-- Claim C7, counterexample: both marker tokens are present in
`END_JUCE_MODULE_DECLARATION BEGIN_JUCE_MODULE_DECLARATION` (the end-marker
at offset 0, the begin-marker at offset 28), yet extraction fails, because
no end-marker occurrence lies after the begin-marker.  The claim's
"extraction succeeds whenever both markers are present" is therefore false
at this input. -/
theorem c7_counterexample :
    occursAt ("END_JUCE_MODULE_DECLARATION BEGIN_JUCE_MODULE_DECLARATION".toList)
      endMarker 0 = true ∧
    occursAt ("END_JUCE_MODULE_DECLARATION BEGIN_JUCE_MODULE_DECLARATION".toList)
      beginMarker 28 = true ∧
    extract_declaration_block
      ("END_JUCE_MODULE_DECLARATION BEGIN_JUCE_MODULE_DECLARATION".toList) = none :=
  ⟨by rfl, by rfl, by rfl⟩

/-- Claim C7, amended: extraction fails exactly when no begin-marker
occurrence is followed (at or after its end) by an end-marker occurrence;
in particular it succeeds whenever the markers are both present in that
order, and a header whose markers appear only in the reverse order fails. -/
theorem c7_amended_failure_iff (content : List Char) :
    extract_declaration_block content = none ↔
      ¬ ∃ b e, occursAt content beginMarker b = true ∧
        occursAt content endMarker e = true ∧ b + beginMarker.length ≤ e := by
  have hblen : 0 < beginMarker.length := by decide
  have helen : 0 < endMarker.length := by decide
  constructor
  · intro hnone
    rintro ⟨b, e, hb, he, hle⟩
    rw [extract_declaration_block] at hnone
    cases hfirst : lastIdxWhere
        (fun b' => occursAt content beginMarker b' &&
          hasEndMarkerFrom content (b' + beginMarker.length))
        (content.length + 1) with
    | some b0 =>
      simp only [hfirst] at hnone
      obtain ⟨hp, _, _⟩ := lastIdxWhere_spec hfirst
      simp only [Bool.and_eq_true] at hp
      have hsome := hp.2
      rw [hasEndMarkerFrom] at hsome
      cases hsecond : lastIdxWhere
          (fun e' => occursAt content endMarker e' &&
            decide (b0 + beginMarker.length ≤ e'))
          (content.length + 1) with
      | none =>
        rw [hsecond] at hsome
        simp at hsome
      | some e0 =>
        simp only [hsecond] at hnone
        exact absurd hnone (by simp)
    | none =>
      have hall := lastIdxWhere_none hfirst
      have hbbound := occursAt_bound hblen hb
      have hebound := occursAt_bound helen he
      have hP1 : (occursAt content beginMarker b &&
          hasEndMarkerFrom content (b + beginMarker.length)) = true := by
        simp only [Bool.and_eq_true]
        refine ⟨hb, ?_⟩
        rw [hasEndMarkerFrom]
        obtain ⟨m, hm1, _⟩ := @lastIdxWhere_some_of
          (fun e' => occursAt content endMarker e' && decide (b + beginMarker.length ≤ e'))
          (content.length + 1) e (by omega) (by simp [he, hle])
        rw [hm1]
        rfl
      exact absurd hP1 (by simp [hall b (by omega)])
  · intro hnex
    rw [extract_declaration_block]
    cases hfirst : lastIdxWhere
        (fun b' => occursAt content beginMarker b' &&
          hasEndMarkerFrom content (b' + beginMarker.length))
        (content.length + 1) with
    | none => rfl
    | some b0 =>
      exfalso
      obtain ⟨hp, _, _⟩ := lastIdxWhere_spec hfirst
      simp only [Bool.and_eq_true] at hp
      obtain ⟨hoc, hend⟩ := hp
      rw [hasEndMarkerFrom] at hend
      cases hsecond : lastIdxWhere
          (fun e' => occursAt content endMarker e' &&
            decide (b0 + beginMarker.length ≤ e'))
          (content.length + 1) with
      | none =>
        rw [hsecond] at hend
        simp at hend
      | some e0 =>
        obtain ⟨hp2, _, _⟩ := lastIdxWhere_spec hsecond
        simp only [Bool.and_eq_true, decide_eq_true_eq] at hp2
        exact hnex ⟨b0, e0, hoc, hp2.1, hp2.2⟩

/-- Claim C7, witness: the iff instantiated at a header with no markers at
all (extraction fails) — the right-hand side's negated existence is
checked on the concrete text. -/
theorem c7_witness :
    extract_declaration_block "int x;".toList = none :=
  (c7_amended_failure_iff "int x;".toList).mpr
    (by
      rintro ⟨b, e, hb, _, _⟩
      have hbound := occursAt_bound (by decide : 0 < beginMarker.length) hb
      have hlen : ("int x;".toList).length = 6 := by decide
      have hbm : beginMarker.length = 29 := by decide
      omega)

/-- Claim C8: when a header has a single begin-marker occurrence and at
least one end-marker occurrence after it, the extracted block extends from
the end of the begin-marker to the *last* end-marker occurrence in the
text (the greedy `(.*)` in the block regex), even when the end-marker
occurs more than once. -/
theorem c8_greedy_last_end (content : List Char) (b e0 : Nat)
    (hb : occursAt content beginMarker b = true)
    (huniq : ∀ b', b' ≤ content.length → occursAt content beginMarker b' = true → b' = b)
    (he0 : occursAt content endMarker e0 = true)
    (hle : b + beginMarker.length ≤ e0) :
    ∃ e, occursAt content endMarker e = true ∧ b + beginMarker.length ≤ e ∧
      (∀ e', e < e' → occursAt content endMarker e' = false) ∧
      extract_declaration_block content =
        some ((content.drop (b + beginMarker.length)).take
          (e - (b + beginMarker.length))) := by
  have hblen : 0 < beginMarker.length := by decide
  have helen : 0 < endMarker.length := by decide
  have hbbound := occursAt_bound hblen hb
  have hebound := occursAt_bound helen he0
  have hP1 : (occursAt content beginMarker b &&
      hasEndMarkerFrom content (b + beginMarker.length)) = true := by
    simp only [Bool.and_eq_true]
    refine ⟨hb, ?_⟩
    rw [hasEndMarkerFrom]
    obtain ⟨m, hm1, _⟩ := @lastIdxWhere_some_of
      (fun e' => occursAt content endMarker e' && decide (b + beginMarker.length ≤ e'))
      (content.length + 1) e0 (by omega) (by simp [he0, hle])
    rw [hm1]
    rfl
  obtain ⟨b1, hb1, _⟩ := @lastIdxWhere_some_of
    (fun b' => occursAt content beginMarker b' &&
      hasEndMarkerFrom content (b' + beginMarker.length))
    (content.length + 1) b (by omega) hP1
  obtain ⟨hp1, _, _⟩ := lastIdxWhere_spec hb1
  simp only [Bool.and_eq_true] at hp1
  have hb1b : b1 = b := by
    refine huniq b1 ?_ hp1.1
    have := occursAt_bound hblen hp1.1
    omega
  subst hb1b
  obtain ⟨e1, he1, he1ge⟩ := @lastIdxWhere_some_of
    (fun e' => occursAt content endMarker e' && decide (b1 + beginMarker.length ≤ e'))
    (content.length + 1) e0 (by omega) (by simp [he0, hle])
  obtain ⟨hp2, _, hmax⟩ := lastIdxWhere_spec he1
  simp only [Bool.and_eq_true, decide_eq_true_eq] at hp2
  refine ⟨e1, hp2.1, hp2.2, ?_, ?_⟩
  · intro e' he'
    by_cases hlt : e' < content.length + 1
    · cases hoc : occursAt content endMarker e' with
      | false => rfl
      | true =>
        have hfalse := hmax e' he' hlt
        rw [hoc] at hfalse
        simp only [Bool.true_and, decide_eq_false_iff_not] at hfalse
        omega
    · cases hoc : occursAt content endMarker e' with
      | false => rfl
      | true =>
        have := occursAt_bound helen hoc
        have : 0 < endMarker.length := helen
        omega
  · rw [extract_declaration_block]
    simp only [hb1, he1]

/-- Claim C8, witness: a header whose end-marker occurs twice; the block
runs to the second occurrence (offset 62), so it still contains the first
end-marker. -/
theorem c8_witness :
    ∃ e, occursAt
        "BEGIN_JUCE_MODULE_DECLARATION\nx\nEND_JUCE_MODULE_DECLARATION\ny\nEND_JUCE_MODULE_DECLARATION".toList
        endMarker e = true ∧ 0 + beginMarker.length ≤ e ∧
      (∀ e', e < e' → occursAt
        "BEGIN_JUCE_MODULE_DECLARATION\nx\nEND_JUCE_MODULE_DECLARATION\ny\nEND_JUCE_MODULE_DECLARATION".toList
        endMarker e' = false) ∧
      extract_declaration_block
        "BEGIN_JUCE_MODULE_DECLARATION\nx\nEND_JUCE_MODULE_DECLARATION\ny\nEND_JUCE_MODULE_DECLARATION".toList =
        some (("BEGIN_JUCE_MODULE_DECLARATION\nx\nEND_JUCE_MODULE_DECLARATION\ny\nEND_JUCE_MODULE_DECLARATION".toList.drop
          (0 + beginMarker.length)).take (e - (0 + beginMarker.length))) :=
  c8_greedy_last_end
    "BEGIN_JUCE_MODULE_DECLARATION\nx\nEND_JUCE_MODULE_DECLARATION\ny\nEND_JUCE_MODULE_DECLARATION".toList
    0 32 (by rfl) (by decide) (by rfl) (by decide)

/-- Claim C9, counterexample: the same two files — `juce_bad.h` holding an
unterminated namespace (its closing brace is missing, so injection raises)
followed by `juce_good.h` — abort the whole batch when processed by the
orchestrator's *top-level* file loop (lines 158-159, which has no
`try/except`), while the subdirectory loop (lines 162-170) logs, keeps the
failing file unchanged, and still processes the next file.  The claim's
"every file's failure is caught and processing continues" is therefore
false for top-level files. -/
theorem c9_counterexample :
    process_top_level_files "G".toList
        [("juce_bad.h".toList, " namespace A \x7b".toList),
         ("juce_good.h".toList, "int y;".toList)] =
      Except.error "error finding end of namespace" ∧
    process_subdir_files "G".toList
        [("juce_bad.h".toList, " namespace A \x7b".toList),
         ("juce_good.h".toList, "int y;".toList)] =
      [("juce_bad.h".toList, " namespace A \x7b".toList),
       ("juce_good.h".toList,
        group_definition_start "G".toList ++ "int y;".toList ++
          group_definition_end)] :=
  ⟨by rfl, by rfl⟩

/-- Claim C9, amended: per-file failure containment holds only for the
subdirectory loop — there a failing file is left unchanged and the files
before and after it are still processed — while a failure in the top-level
loop propagates immediately and aborts that batch. -/
theorem c9_amended_per_file (g bn bc : List Char)
    (pre post : List (List Char × List Char)) (em : String)
    (hbad : add_doxygen_group bn bc g = Except.error em) :
    process_subdir_files g (pre ++ (bn, bc) :: post) =
      process_subdir_files g pre ++ (bn, bc) :: process_subdir_files g post ∧
    process_top_level_files g ((bn, bc) :: post) = Except.error em := by
  constructor
  · rw [process_subdir_files, process_subdir_files, process_subdir_files,
      List.map_append, List.map_cons]
    simp only [hbad]
  · simp only [process_top_level_files, hbad]

/-- Claim C9, witness: the amended statement at the concrete malformed
file, with one healthy file on each side. -/
theorem c9_witness :
    process_subdir_files "G".toList
        ([("juce_ok1.h".toList, "int a;".toList)] ++
          ("juce_bad.h".toList, " namespace A \x7b".toList) ::
          [("juce_ok2.h".toList, "int b;".toList)]) =
      process_subdir_files "G".toList [("juce_ok1.h".toList, "int a;".toList)] ++
        ("juce_bad.h".toList, " namespace A \x7b".toList) ::
        process_subdir_files "G".toList [("juce_ok2.h".toList, "int b;".toList)] ∧
    process_top_level_files "G".toList
        (("juce_bad.h".toList, " namespace A \x7b".toList) ::
          [("juce_ok2.h".toList, "int b;".toList)]) =
      Except.error "error finding end of namespace" :=
  c9_amended_per_file "G".toList "juce_bad.h".toList " namespace A \x7b".toList
    [("juce_ok1.h".toList, "int a;".toList)] [("juce_ok2.h".toList, "int b;".toList)]
    "error finding end of namespace" (by rfl)

theorem parse_module_block_no_desc_aux :
    ∀ (lines : List (List Char)) (acc : ModuleInfo),
      (∀ l ∈ lines, descriptionRest (pyStrip l) = none) →
      acc.short_description = none →
      (lines.foldl process_block_line acc).short_description = none := by
  intro lines
  induction lines with
  | nil => intro acc _ hacc; simpa using hacc
  | cons l ls ih =>
    intro acc hall hacc
    rw [List.foldl_cons]
    refine ih _ (fun x hx => hall x (List.mem_cons_of_mem _ hx)) ?_
    simp only [process_block_line]
    split_ifs with hempty
    · exact hacc
    · rw [hall l (List.mem_cons_self _ _)]
      exact hacc

/-- Claim C10: when no line of the declaration block matches the
description pattern, the parsing loop never assigns `short_description`
(it stays `none`, never the empty string), and building the module
definition from it fails — the Python `NameError` on line 131 — rather
than producing a descriptor with an empty short description. -/
theorem c10_missing_description (block : List Char)
    (h : ∀ line ∈ splitOnNl block, descriptionRest (pyStrip line) = none) :
    (parse_module_block block).short_description = none ∧
    short_description_line (parse_module_block block) =
      Except.error "NameError: name short_description is not defined" := by
  have hmain := parse_module_block_no_desc_aux (splitOnNl block) ⟨none, []⟩ h rfl
  rw [parse_module_block]
  refine ⟨hmain, ?_⟩
  rw [short_description_line]
  simp only [hmain]

/-- Claim C10, witness: a block holding only `id: foo` (no description
line). -/
theorem c10_witness :
    (parse_module_block " id: foo".toList).short_description = none ∧
    short_description_line (parse_module_block " id: foo".toList) =
      Except.error "NameError: name short_description is not defined" :=
  c10_missing_description " id: foo".toList (by decide)
